import Mathlib

/-!
A verification development for the index-related declarations of
`src/cache.h` and the status helper `src/wt-status.c`.

Machine integers are modelled as `Nat` with explicit masking / `% 2 ^ w`
where the C code can overflow.  Byte order (`htonl` / `ntohl`, `htons` /
`ntohs`) is modelled as an explicit 32-bit / 16-bit byte swap, the
behaviour of the conversion macros on a little-endian host; the only
facts used about them are that they are involutive on in-range values.

Strings and paths are modelled as `List Nat` of byte values (a C string
holds no interior NUL, so reading the terminator at offset `off` is
modelled as `off` reaching the list length).
-/

/-! ### Mode bits (POSIX `sys/stat.h` constants used by `src/cache.h`) -/

def S_IFMT : Nat := 0o170000

def S_IFREG : Nat := 0o100000

def S_IFDIR : Nat := 0o040000

def S_IFLNK : Nat := 0o120000

/-- `src/cache.h:44` — `#define S_IFGITLINK 0160000`. -/
def S_IFGITLINK : Nat := 0o160000

def S_ISREG (m : Nat) : Bool := (m &&& S_IFMT) == S_IFREG

def S_ISLNK (m : Nat) : Bool := (m &&& S_IFMT) == S_IFLNK

def S_ISDIR (m : Nat) : Bool := (m &&& S_IFMT) == S_IFDIR

/-- `src/cache.h:45` — `#define S_ISGITLINK(m) (((m) & S_IFMT) == S_IFGITLINK)`. -/
def S_ISGITLINK (m : Nat) : Bool := (m &&& S_IFMT) == S_IFGITLINK

/-! ### Byte order -/

/-- 32-bit byte swap: `htonl` on a little-endian host. -/
def htonl (x : Nat) : Nat :=
  (x % 256) * 16777216 + (x / 256 % 256) * 65536 + (x / 65536 % 256) * 256
    + x % 4294967296 / 16777216

/-- `ntohl` is the same byte swap. -/
def ntohl (x : Nat) : Nat := htonl x

/-- 16-bit byte swap: `htons` on a little-endian host. -/
def htons (x : Nat) : Nat :=
  (x % 256) * 256 + x % 65536 / 256

/-- `ntohs` is the same byte swap. -/
def ntohs (x : Nat) : Nat := htons x

/-! ### Entry mode canonicalization (`src/cache.h:122-146`) -/

/-- `src/cache.h:122` — `#define ce_permissions(mode) (((mode) & 0100) ? 0755 : 0644)`. -/
def ce_permissions (mode : Nat) : Nat := if mode &&& 0o100 ≠ 0 then 0o755 else 0o644

/-- `src/cache.h:123-130` — `create_ce_mode`: symlinks become `S_IFLNK`,
directories and gitlinks become `S_IFGITLINK`, everything else becomes a
regular file with canonical permissions; the result is stored in network
byte order (`htonl`). -/
def create_ce_mode (mode : Nat) : Nat :=
  if S_ISLNK mode then htonl S_IFLNK
  else if S_ISDIR mode || S_ISGITLINK mode then htonl S_IFGITLINK
  else htonl (S_IFREG ||| ce_permissions mode)

/-- `src/cache.h:144-146` — the `canon_mode(mode)` macro:
`S_ISREG(mode) ? (S_IFREG | ce_permissions(mode)) : S_ISLNK(mode) ? S_IFLNK :
S_ISDIR(mode) ? S_IFDIR : S_IFGITLINK`. -/
def canon_mode (mode : Nat) : Nat :=
  if S_ISREG mode then S_IFREG ||| ce_permissions mode
  else if S_ISLNK mode then S_IFLNK
  else if S_ISDIR mode then S_IFDIR
  else S_IFGITLINK

/-- Whether an existing entry (its stored network-order `ce_mode`, `none`
for a NULL `struct cache_entry *`) is a symlink: `ce && S_ISLNK(ntohl(ce->ce_mode))`. -/
def ceIsLnk : Option Nat → Bool
  | none => false
  | some cm => S_ISLNK (ntohl cm)

/-- Whether an existing entry is a regular file: `ce && S_ISREG(ntohl(ce->ce_mode))`. -/
def ceIsReg : Option Nat → Bool
  | none => false
  | some cm => S_ISREG (ntohl cm)

/-- `src/cache.h:131-143` — `ce_mode_from_stat(ce, mode)`; the two
configuration globals `trust_executable_bit` and `has_symlinks` are
passed explicitly, and `ce` carries the stored `ce_mode` of the existing
entry (or `none` for a NULL pointer). -/
def ce_mode_from_stat (trust_executable_bit has_symlinks : Bool)
    (ce : Option Nat) (mode : Nat) : Nat :=
  if !has_symlinks && S_ISREG mode && ceIsLnk ce then
    ce.getD 0
  else if !trust_executable_bit && S_ISREG mode then
    if ceIsReg ce then ce.getD 0 else create_ce_mode 0o666
  else create_ce_mode mode

/-! ### Flags (`src/cache.h:111-120`) -/

def CE_NAMEMASK : Nat := 0x0fff

def CE_STAGEMASK : Nat := 0x3000

def CE_STAGESHIFT : Nat := 12

/-- `src/cache.h:117` — `#define create_ce_flags(len, stage)
htons((len) | ((stage) << CE_STAGESHIFT))`. -/
def create_ce_flags (len stage : Nat) : Nat :=
  htons (len ||| (stage <<< CE_STAGESHIFT))

/-- `src/cache.h:118` — `#define ce_namelen(ce) (CE_NAMEMASK & ntohs((ce)->ce_flags))`,
applied to a flags value. -/
def ce_namelen (flags : Nat) : Nat := CE_NAMEMASK &&& ntohs flags

/-- `src/cache.h:120` — `#define ce_stage(ce)
((CE_STAGEMASK & ntohs((ce)->ce_flags)) >> CE_STAGESHIFT)`. -/
def ce_stage (flags : Nat) : Nat := (CE_STAGEMASK &&& ntohs flags) >>> CE_STAGESHIFT

/-! ### On-disk entry size (`src/cache.h:97-109,148`) -/

/-- `offsetof(struct cache_entry, name)`: the packed fixed header of
`struct cache_entry` is two `struct cache_time` (2 × 8 bytes), six
`unsigned int` (6 × 4 bytes), `unsigned char sha1[20]`, and the 16-bit
`ce_flags`; every field is naturally aligned with no padding, so the
flexible `name` member starts at byte 62. -/
def cache_entry_name_offset : Nat := 8 + 8 + 4 + 4 + 4 + 4 + 4 + 4 + 20 + 2

/-- `src/cache.h:148` — `#define cache_entry_size(len)
((offsetof(struct cache_entry,name) + (len) + 8) & ~7)`; the arithmetic
is `size_t` (64-bit) arithmetic, so `~7` is the mask `2 ^ 64 - 8`. -/
def cache_entry_size (len : Nat) : Nat :=
  (cache_entry_name_offset + len + 8) &&& (2 ^ 64 - 8)

/-! ### Object identifiers (`src/cache.h:352-368`) -/

/-- `memcmp` over `n` bytes of two buffers, returning the difference of
the first pair of distinct bytes (negative / zero / positive exactly as
the C contract requires). -/
def memcmpBytes : List Nat → List Nat → Nat → Int
  | _, _, 0 => 0
  | [], _, _ + 1 => 0
  | _ :: _, [], _ + 1 => 0
  | a :: as, b :: bs, n + 1 =>
    if a ≠ b then (a : Int) - (b : Int) else memcmpBytes as bs n

/-- `src/cache.h:352` — `const unsigned char null_sha1[20]` (defined in the
object layer as an all-zero array). -/
def null_sha1 : List Nat := List.replicate 20 0

/-- `src/cache.h:357-360` — `hashcmp(sha1, sha2)` is `memcmp(sha1, sha2, 20)`. -/
def hashcmp (sha1 sha2 : List Nat) : Int := memcmpBytes sha1 sha2 20

/-- `src/cache.h:353-356` — `is_null_sha1(sha1)` is `!memcmp(sha1, null_sha1, 20)`. -/
def is_null_sha1 (sha1 : List Nat) : Bool := memcmpBytes sha1 null_sha1 20 == 0

/-! ### Object types (`src/cache.h:182-200`) -/

inductive ObjType where
  | OBJ_BAD
  | OBJ_NONE
  | OBJ_COMMIT
  | OBJ_TREE
  | OBJ_BLOB
  | OBJ_TAG
  | OBJ_OFS_DELTA
  | OBJ_REF_DELTA
  | OBJ_MAX
deriving DecidableEq, Repr

/-- `src/cache.h:195-200` — `object_type(mode)`:
`S_ISDIR(mode) ? OBJ_TREE : S_ISGITLINK(mode) ? OBJ_COMMIT : OBJ_BLOB`. -/
def object_type (mode : Nat) : ObjType :=
  if S_ISDIR mode then .OBJ_TREE
  else if S_ISGITLINK mode then .OBJ_COMMIT
  else .OBJ_BLOB

/-! ### `quote_path` (`src/wt-status.c:85-129`) -/

/-- `src/wt-status.c:93-103` — the relativization loop of `quote_path`.
State is (remaining prefix, remaining input, remaining length, scan
offset); `prefix[off]` being the NUL terminator is modelled as `off`
reaching the end of the prefix list, and `'/'` is byte 47.  Returns the
state after the loop. -/
def quote_path_rel (pre inp : List Nat) (len off : Nat) : List Nat × List Nat × Nat :=
  if h : off < pre.length ∧ off < len ∧ pre.getD off 0 = inp.getD off 0 then
    if pre.getD off 0 = 47 then
      quote_path_rel (pre.drop (off + 1)) (inp.drop (off + 1)) (len - (off + 1)) 0
    else
      quote_path_rel pre inp len (off + 1)
  else (pre, inp, len)
termination_by len - off
decreasing_by
  · omega
  · omega

/-- `src/wt-status.c:104-107` — after the loop, one `"../"` (bytes
46,46,47) is appended for every `'/'` remaining in the prefix. -/
def quote_dots : List Nat → List Nat
  | [] => []
  | c :: rest => (if c = 47 then [46, 46, 47] else []) ++ quote_dots rest

/-- `src/wt-status.c:109-123` — the escaping loop of `quote_path`: `'\n'`
(byte 10) becomes `"\\n"` (92,110), `'\r'` (byte 13) becomes `"\\r"`
(92,114), every other byte is copied. -/
def quote_escape : List Nat → List Nat
  | [] => []
  | c :: rest =>
    (if c = 10 then [92, 110] else if c = 13 then [92, 114] else [c]) ++ quote_escape rest

/-- `src/wt-status.c:85-129` — `quote_path(in, len, out, prefix)`.  `len`
is the C `int` argument (negative means use `strlen(in)`), `pre` is the
optional prefix (`none` for a NULL pointer); the strbuf `out` is the
returned byte list.  A final empty buffer is replaced by `"./"`
(bytes 46,47). -/
def quote_path (inp : List Nat) (len : Int) (pre : Option (List Nat)) : List Nat :=
  match pre with
  | none =>
    let n := if len < 0 then inp.length else len.toNat
    let out := quote_escape (inp.take n)
    if out = [] then [46, 47] else out
  | some p =>
    let n := if len < 0 then inp.length else len.toNat
    let r := quote_path_rel p inp n 0
    let out := quote_dots r.1 ++ quote_escape (r.2.1.take r.2.2)
    if out = [] then [46, 47] else out

/-- The escaping described by the specification sentence, as a plain map
over the bytes: every LF becomes `"\\n"`, every CR becomes `"\\r"`, all
other bytes are kept.  This is the specification-side counterpart of
`quote_escape` for the refinement statement. -/
def escapeSpec (bs : List Nat) : List Nat :=
  bs.flatMap fun c => if c = 10 then [92, 110] else if c = 13 then [92, 114] else [c]

/-! ### The index container and `index_name_pos`

`index_name_pos` is declared at `src/cache.h:266` and consumed by
`src/wt-status.c:296` (through the `cache_name_pos` compatibility macro,
`src/cache.h:172`), but its body is not part of the excerpt; the
definitions in this section are therefore modelled from the spec
(§3 "Index state", §4.2 "Index Container"). -/

/-- One index entry as the container sees it: the path (raw bytes,
`name`) and the merge stage (0-3).  The stat payload and oid play no
role in name-position lookup. -/
structure CEntry where
  name : List Nat
  stage : Nat
deriving DecidableEq, Repr

/-- Modelled from the spec: §4.2 "Path comparator" — "Names are compared
as raw byte sequences ... Tie-break: shorter prefix sorts first".
Three-way comparison of two byte strings. -/
def cmpBytes : List Nat → List Nat → Ordering
  | [], [] => .eq
  | [], _ :: _ => .lt
  | _ :: _, [] => .gt
  | a :: as, b :: bs =>
    if a < b then .lt else if b < a then .gt else cmpBytes as bs

/-- Modelled from the spec: §4.2 "Path comparator" — "on equal names,
lower stage first".  A lookup key or entry key is (name bytes, stage). -/
def cmpKeys (a b : List Nat × Nat) : Ordering :=
  if cmpBytes a.1 b.1 = .eq then compare a.2 b.2 else cmpBytes a.1 b.1

def keyOf (e : CEntry) : List Nat × Nat := (e.name, e.stage)

/-- The entry of `cache` at position `i` (the `active_cache[pos]` access
of `src/wt-status.c:302`; positions produced by lookup are in range). -/
def entryAt (cache : List CEntry) (i : Nat) : CEntry :=
  (cache.drop i).headD ⟨[], 0⟩

/-- Invariant 1 of §3: entries are sorted primarily by name bytes and
secondarily by stage ascending, with no duplicate (name, stage) — i.e.
strictly increasing under the key comparator. -/
def IndexSorted (cache : List CEntry) : Prop :=
  List.Pairwise (fun a b => cmpKeys (keyOf a) (keyOf b) = .lt) cache

/-- Modelled from the spec: §4.2 — "`lookup(name) -> position` ...
Implemented as binary search over the sorted vector."  The loop keeps a
half-open window [first, last); probing the midpoint either hits the key
or narrows the window. -/
def index_name_pos_loop (cache : List CEntry) (key : List Nat × Nat)
    (first last : Nat) : Int :=
  if h : first < last then
    match cmpKeys key (keyOf (entryAt cache ((first + last) / 2))) with
    | .eq => Int.ofNat ((first + last) / 2)
    | .lt => index_name_pos_loop cache key first ((first + last) / 2)
    | .gt => index_name_pos_loop cache key ((first + last) / 2 + 1) last
  else
    -(first : Int) - 1
termination_by last - first
decreasing_by
  · omega
  · omega

/-- Modelled from the spec: §4.2 — "Returns a non-negative index if found
at stage 0, or the bitwise-complement of the insertion point if absent";
the lookup key carries stage 0. -/
def index_name_pos (cache : List CEntry) (name : List Nat) : Int :=
  index_name_pos_loop cache (name, 0) 0 cache.length

/-- The sorted insertion point for a key: the number of entries that
compare strictly below it. -/
def insPoint (cache : List CEntry) (key : List Nat × Nat) : Nat :=
  cache.countP fun e => cmpKeys key (keyOf e) = .gt

/-! ### The untracked-listing decision (`src/wt-status.c:292-317`) -/

/-- Outcome of the per-scanned-path check in `wt_status_print_untracked`. -/
inductive UntrackedOutcome where
  | bugAssert
  | skipUnmerged
  | listUntracked
deriving DecidableEq, Repr

/-- `src/wt-status.c:292-306` — for a path produced by the directory scan:
`pos = cache_name_pos(name, len); if (0 <= pos) die("bug ..."); pos = -pos-1;
if (pos < active_nr) { ce = active_cache[pos]; if (ce_namelen(ce) == ent->len
&& !memcmp(ce->name, ent->name, ent->len)) continue; }` — otherwise the
path is printed as untracked.  The name-length test plus `memcmp` over
`ent->len` bytes is entry-name equality. -/
def untracked_decision (cache : List CEntry) (entName : List Nat) : UntrackedOutcome :=
  let pos := index_name_pos cache entName
  if 0 ≤ pos then .bugAssert
  else
    let p := (-pos - 1).toNat
    if p < cache.length ∧ (entryAt cache p).name.length = entName.length ∧
        (entryAt cache p).name.take entName.length = entName then
      .skipUnmerged
    else .listUntracked

/-! ## Theorems -/

/-! ### Byte-order facts -/

theorem htonl_bytes {a b c d : Nat} (ha : a < 256) (hb : b < 256) (hc : c < 256)
    (hd : d < 256) :
    htonl (a + 256 * b + 65536 * c + 16777216 * d)
      = d + 256 * c + 65536 * b + 16777216 * a := by
  unfold htonl
  have h1 : (a + 256 * b + 65536 * c + 16777216 * d) % 256 = a := by omega
  have h2 : (a + 256 * b + 65536 * c + 16777216 * d) / 256 % 256 = b := by omega
  have h3 : (a + 256 * b + 65536 * c + 16777216 * d) / 65536 % 256 = c := by omega
  have h4 : (a + 256 * b + 65536 * c + 16777216 * d) % 4294967296 / 16777216 = d := by
    omega
  rw [h1, h2, h3, h4]
  ring

theorem ntohl_htonl {x : Nat} (h : x < 4294967296) : ntohl (htonl x) = x := by
  obtain ⟨a, b, c, d, ha, hb, hc, hd, hx⟩ :
      ∃ a b c d, a < 256 ∧ b < 256 ∧ c < 256 ∧ d < 256 ∧
        x = a + 256 * b + 65536 * c + 16777216 * d :=
    ⟨x % 256, x / 256 % 256, x / 65536 % 256, x / 16777216,
      by omega, by omega, by omega, by omega, by omega⟩
  subst hx
  rw [ntohl, htonl_bytes ha hb hc hd, htonl_bytes hd hc hb ha]

theorem htons_bytes {a b : Nat} (ha : a < 256) (hb : b < 256) :
    htons (a + 256 * b) = b + 256 * a := by
  unfold htons
  have h1 : (a + 256 * b) % 256 = a := by omega
  have h2 : (a + 256 * b) % 65536 / 256 = b := by omega
  rw [h1, h2]
  ring

theorem ntohs_htons {x : Nat} (h : x < 65536) : ntohs (htons x) = x := by
  obtain ⟨a, b, ha, hb, hx⟩ :
      ∃ a b, a < 256 ∧ b < 256 ∧ x = a + 256 * b :=
    ⟨x % 256, x / 256, by omega, by omega, by omega⟩
  subst hx
  rw [ntohs, htons_bytes ha hb, htons_bytes hb ha]

instance (cache : List CEntry) : Decidable (IndexSorted cache) :=
  inferInstanceAs (Decidable (List.Pairwise _ cache))

/-! ### Bit-level helper lemmas -/

theorem or_shift12_eq_add {len s : Nat} (h : len < 2 ^ 12) :
    len ||| s <<< 12 = 2 ^ 12 * s + len := by
  rw [Nat.shiftLeft_eq, Nat.mul_comm s, Nat.mul_add_lt_is_or h, Nat.or_comm]

theorem and_3000_eq (x : Nat) : 0x3000 &&& x = ((x >>> 12) &&& 3) <<< 12 := by
  apply Nat.eq_of_testBit_eq
  intro i
  rw [show (0x3000 : Nat) = 3 <<< 12 by decide]
  simp only [Nat.testBit_and, Nat.testBit_shiftLeft, Nat.testBit_shiftRight]
  by_cases h3 : 12 ≤ i
  · have he : 12 + (i - 12) = i := by omega
    simp [ge_iff_le, h3, he, Bool.and_comm]
  · simp [ge_iff_le, h3]

theorem and_mask_align8 (x : Nat) : x &&& (2 ^ 64 - 8) = x % 2 ^ 64 / 8 * 8 := by
  apply Nat.eq_of_testBit_eq
  intro i
  rw [show (2 ^ 64 - 8 : Nat) = (2 ^ 61 - 1) <<< 3 by decide]
  have hr : x % 2 ^ 64 / 8 * 8 = ((x % 2 ^ 64) >>> 3) <<< 3 := by
    rw [Nat.shiftLeft_eq, Nat.shiftRight_eq_div_pow]
  rw [hr]
  simp only [Nat.testBit_and, Nat.testBit_shiftLeft, Nat.testBit_shiftRight,
    Nat.testBit_mod_two_pow, Nat.testBit_two_pow_sub_one]
  by_cases h3 : 3 ≤ i
  · have he : 3 + (i - 3) = i := by omega
    by_cases h64 : i < 64
    · have h61 : i - 3 < 61 := by omega
      simp [ge_iff_le, h3, he, h61, h64, Bool.and_comm]
    · have h61 : ¬(i - 3 < 61) := by omega
      simp [ge_iff_le, h3, he, h61, h64]
  · simp [ge_iff_le, h3]

/-! ### C1 — canonical modes -/

/-- C1, counterexample: the claim quantifies over every raw mode and
includes `canon_mode`, but `canon_mode` sends a directory mode
(`0040000`) to `S_IFDIR`, which is outside the four-element canonical
set. -/
theorem canon_mode_directory_counterexample :
    canon_mode 0o040000 ∉ ([0o100644, 0o100755, 0o120000, 0o160000] : List Nat) := by
  decide

/-- C1, amended: `create_ce_mode` always produces (up to byte order) one
of the four canonical modes — regular 0644, regular 0755, symlink,
gitlink — and `canon_mode` does so for every non-directory input, while
a directory mode canonicalizes to `S_IFDIR` under `canon_mode`. -/
theorem canonical_mode_range (m : Nat) :
    ntohl (create_ce_mode m) ∈ ([0o100644, 0o100755, 0o120000, 0o160000] : List Nat) ∧
    (S_ISDIR m = false →
      canon_mode m ∈ ([0o100644, 0o100755, 0o120000, 0o160000] : List Nat)) ∧
    (S_ISDIR m = true → canon_mode m = S_IFDIR) := by
  refine ⟨?_, ?_, ?_⟩
  · unfold create_ce_mode ce_permissions
    split
    · decide
    · split
      · decide
      · split
        · decide
        · decide
  · intro hd
    unfold canon_mode ce_permissions
    split
    · split
      · decide
      · decide
    · split
      · decide
      · split
        · rename_i hdir
          rw [hd] at hdir
          exact absurd hdir (by decide)
        · decide
  · intro hd
    have hm : m &&& S_IFMT = S_IFDIR := by simpa [S_ISDIR] using hd
    have hr : S_ISREG m = false := by simp [S_ISREG, hm]; decide
    have hl : S_ISLNK m = false := by simp [S_ISLNK, hm]; decide
    unfold canon_mode
    rw [hr, hl, hd]
    simp

/-! ### C2 — flags round-trip -/

/-- C2, counterexample: `create_ce_flags` does not clamp the length; at
`len = 0x1000` the length bit overflows into the stage field, so neither
`ce_namelen` (which yields 0, not `min len 0xfff`) nor `ce_stage` (which
yields 1, not 0) decodes as the claim states. -/
theorem create_ce_flags_overflow_counterexample :
    ¬(ce_namelen (create_ce_flags 4096 0) = min 4096 0xfff ∧
      ce_stage (create_ce_flags 4096 0) = 0) := by
  decide

/-- C2, amended: for name lengths up to `0xfff` (and any stage 0-3) the
flags built by `create_ce_flags` decode exactly: `ce_namelen` returns
the length and `ce_stage` the stage; the claimed clamping of longer
lengths does not happen in `create_ce_flags` itself (callers must
clamp). -/
theorem ce_flags_roundtrip (len stage : Nat) (hlen : len ≤ 0xfff) (hstage : stage ≤ 3) :
    ce_namelen (create_ce_flags len stage) = len ∧
    ce_stage (create_ce_flags len stage) = stage := by
  unfold ce_namelen ce_stage create_ce_flags CE_NAMEMASK CE_STAGEMASK CE_STAGESHIFT
  have hor : len ||| stage <<< 12 = 2 ^ 12 * stage + len :=
    or_shift12_eq_add (by omega)
  have hlt : len ||| stage <<< 12 < 65536 := by
    rw [hor]; omega
  rw [ntohs_htons hlt, hor]
  constructor
  · rw [Nat.and_comm, show (0x0fff : Nat) = 2 ^ 12 - 1 by norm_num,
      Nat.and_pow_two_sub_one_eq_mod]
    omega
  · rw [and_3000_eq, Nat.shiftLeft_eq, Nat.shiftRight_eq_div_pow,
      Nat.shiftRight_eq_div_pow]
    rw [show (2 ^ 12 * stage + len) / 2 ^ 12 = stage by omega]
    rw [show stage &&& 3 = stage by
      rw [show (3 : Nat) = 2 ^ 2 - 1 by norm_num, Nat.and_pow_two_sub_one_eq_mod]
      omega]
    omega

/-- C2, witness at `len = 6`, `stage = 2`. -/
theorem ce_flags_roundtrip_witness :
    ce_namelen (create_ce_flags 6 2) = 6 ∧ ce_stage (create_ce_flags 6 2) = 2 :=
  ce_flags_roundtrip 6 2 (by norm_num) (by norm_num)

/-! ### C3 / C4 — `ce_mode_from_stat` -/

/-- C3, counterexample: with `trust_executable_bit` false and a fresh
stat reporting a regular file, an existing regular-file entry with mode
0755 is returned unchanged — not forced to 0644 as the claim states. -/
theorem exec_bit_disabled_counterexample :
    ¬(ntohl (ce_mode_from_stat false true (some (htonl 0o100755)) 0o100644)
        = 0o100644) := by
  decide

/-- C3, amended: when `trust_executable_bit` is false and the fresh stat
reports a regular file (and the symlink-preservation branch does not
apply), `ce_mode_from_stat` keeps the mode of an existing regular-file
entry unchanged — an existing 0755 entry stays 0755 — and only falls
back to regular 0644 (`create_ce_mode(0666)`) when there is no existing
regular-file entry. -/
theorem ce_mode_no_exec_trust (hs : Bool) (ce : Option Nat) (mode : Nat)
    (hreg : S_ISREG mode = true)
    (hsafe : hs = true ∨ ceIsLnk ce = false) :
    ce_mode_from_stat false hs ce mode =
      if ceIsReg ce then ce.getD 0 else htonl 0o100644 := by
  have h1 : (!hs && S_ISREG mode && ceIsLnk ce) = false := by
    rcases hsafe with h | h <;> simp [h]
  have h3 : create_ce_mode 0o666 = htonl 0o100644 := by decide
  unfold ce_mode_from_stat
  rw [h1, h3]
  simp [hreg]

/-- C3, witness: no existing entry, regular working-tree file. -/
theorem ce_mode_no_exec_trust_witness :
    ce_mode_from_stat false true none 0o100644 =
      if ceIsReg none then (none : Option Nat).getD 0 else htonl 0o100644 :=
  ce_mode_no_exec_trust true none 0o100644 (by decide) (Or.inl rfl)

/-- C4: when symlinks are unsupported (`has_symlinks` false) and the
existing entry is a symlink, `ce_mode_from_stat` returns the entry's
stored symlink mode unchanged although the fresh stat reports a regular
file — for any `trust_executable_bit` setting. -/
theorem symlink_entry_preserved (tx : Bool) (cm mode : Nat)
    (hlnk : S_ISLNK (ntohl cm) = true) (hreg : S_ISREG mode = true) :
    ce_mode_from_stat tx false (some cm) mode = cm := by
  unfold ce_mode_from_stat
  simp [ceIsLnk, hlnk, hreg]

/-- C4, witness: stored symlink mode, stat says regular 0644. -/
theorem symlink_entry_preserved_witness :
    ce_mode_from_stat true false (some (htonl 0o120000)) 0o100644 = htonl 0o120000 :=
  symlink_entry_preserved true (htonl 0o120000) 0o100644 (by decide) (by decide)

/-! ### C5 — entry size -/

/-- C5: for every name length (within `size_t` range), the on-disk entry
size is a multiple of 8 and leaves at least one NUL byte after the name;
with the 62-byte header a 6-byte name gives exactly 72 bytes. -/
theorem cache_entry_size_spec (len : Nat)
    (h : cache_entry_name_offset + len + 8 < 2 ^ 64) :
    cache_entry_size len % 8 = 0 ∧
    cache_entry_name_offset + len + 1 ≤ cache_entry_size len ∧
    cache_entry_size 6 = 72 := by
  have h1 := and_mask_align8 (cache_entry_name_offset + len + 8)
  have h2 := and_mask_align8 (cache_entry_name_offset + 6 + 8)
  unfold cache_entry_size
  rw [h1, h2]
  unfold cache_entry_name_offset at *
  refine ⟨by omega, by omega, by omega⟩

/-- C5, witness at `len = 6` (the `"README"` scenario). -/
theorem cache_entry_size_spec_witness :
    cache_entry_size 6 % 8 = 0 ∧
    cache_entry_name_offset + 6 + 1 ≤ cache_entry_size 6 ∧
    cache_entry_size 6 = 72 :=
  cache_entry_size_spec 6 (by norm_num [cache_entry_name_offset])

/-! ### C7 — bytewise oid comparison -/

theorem memcmpBytes_eq_zero_iff :
    ∀ (n : Nat) (a b : List Nat), a.length = n → b.length = n →
      (memcmpBytes a b n = 0 ↔ a = b) := by
  intro n
  induction n with
  | zero =>
    intro a b ha hb
    rw [List.length_eq_zero] at ha hb
    subst ha; subst hb
    simp [memcmpBytes]
  | succ n ih =>
    intro a b ha hb
    match a, b with
    | x :: xs, y :: ys =>
      simp only [List.length_cons, Nat.succ.injEq] at ha hb
      by_cases hxy : x = y
      · subst hxy
        simp [memcmpBytes, ih xs ys ha hb]
      · have hz : ((x : Int) - (y : Int) ≠ 0) := by
          intro h0
          exact hxy (by exact_mod_cast sub_eq_zero.mp h0)
        simp [memcmpBytes, hxy, hz]

/-- C7: object identifiers are compared bytewise over all 20 bytes —
`hashcmp` returns 0 exactly on equal digests, and `is_null_sha1` holds
exactly on the all-zero digest. -/
theorem oid_bytewise_compare (a b : List Nat)
    (ha : a.length = 20) (hb : b.length = 20) :
    (hashcmp a b = 0 ↔ a = b) ∧
    (is_null_sha1 a = true ↔ a = List.replicate 20 0) := by
  constructor
  · exact memcmpBytes_eq_zero_iff 20 a b ha hb
  · simp only [is_null_sha1, null_sha1, beq_iff_eq]
    exact memcmpBytes_eq_zero_iff 20 a (List.replicate 20 0) ha (by simp)

/-- C7, witness on the all-zero digest. -/
theorem oid_bytewise_compare_witness :
    (hashcmp (List.replicate 20 0) (List.replicate 20 0) = 0 ↔
      (List.replicate 20 0 : List Nat) = List.replicate 20 0) ∧
    (is_null_sha1 (List.replicate 20 0) = true ↔
      (List.replicate 20 0 : List Nat) = List.replicate 20 0) :=
  oid_bytewise_compare _ _ (by simp) (by simp)

/-! ### C8 — gitlink encoding -/

/-- C8: `S_ISGITLINK` holds exactly when the format bits equal 0160000,
and `object_type` maps a gitlink mode to `OBJ_COMMIT`. -/
theorem gitlink_mode_commit (m : Nat) :
    (S_ISGITLINK m = true ↔ m &&& 0o170000 = 0o160000) ∧
    (S_ISGITLINK m = true → object_type m = .OBJ_COMMIT) := by
  constructor
  · simp [S_ISGITLINK, S_IFMT, S_IFGITLINK]
  · intro h
    have hm : m &&& S_IFMT = S_IFGITLINK := by simpa [S_ISGITLINK] using h
    have hd : S_ISDIR m = false := by simp [S_ISDIR, hm]; decide
    unfold object_type
    simp [hd, h]

/-- C8, witness at the bare gitlink mode 0160000. -/
theorem gitlink_mode_commit_witness :
    0o160000 &&& 0o170000 = 0o160000 ∧ object_type 0o160000 = .OBJ_COMMIT :=
  ⟨(gitlink_mode_commit 0o160000).1.mp (by decide),
    (gitlink_mode_commit 0o160000).2 (by decide)⟩

/-! ### C9 — `quote_path` -/

theorem quote_escape_eq_escapeSpec (bs : List Nat) : quote_escape bs = escapeSpec bs := by
  induction bs with
  | nil => simp [quote_escape, escapeSpec]
  | cons c rest ih => simp only [quote_escape, escapeSpec, List.flatMap_cons, ih]

theorem quote_path_none_eq (inp : List Nat) (len : Int) :
    quote_path inp len none =
      (if quote_escape (inp.take (if len < 0 then inp.length else len.toNat)) = []
        then [46, 47]
        else quote_escape (inp.take (if len < 0 then inp.length else len.toNat))) := rfl

theorem quote_path_some_eq (inp p : List Nat) (len : Int) :
    quote_path inp len (some p) =
      (if quote_dots (quote_path_rel p inp (if len < 0 then inp.length else len.toNat) 0).1 ++
          quote_escape ((quote_path_rel p inp (if len < 0 then inp.length else len.toNat) 0).2.1.take
            (quote_path_rel p inp (if len < 0 then inp.length else len.toNat) 0).2.2) = []
        then [46, 47]
        else quote_dots (quote_path_rel p inp (if len < 0 then inp.length else len.toNat) 0).1 ++
          quote_escape ((quote_path_rel p inp (if len < 0 then inp.length else len.toNat) 0).2.1.take
            (quote_path_rel p inp (if len < 0 then inp.length else len.toNat) 0).2.2)) := rfl

/-- C9, counterexample: quoting `"a/"` (len 2) against prefix `"a/b/c"`
consumes the entire input (remaining length 0), yet the result is
`"../"`, not `"./"`, because the unmatched prefix still contains a
slash. -/
theorem quote_path_consumed_counterexample :
    (quote_path_rel [97, 47, 98, 47, 99] [97, 47] 2 0).2.2 = 0 ∧
    quote_path [97, 47] 2 (some [97, 47, 98, 47, 99]) = [46, 46, 47] ∧
    ([46, 46, 47] : List Nat) ≠ [46, 47] := by
  refine ⟨by simp [quote_path_rel],
    by simp [quote_path, quote_path_rel, quote_dots, quote_escape], by simp⟩

/-- C9, amended: `quote_path` never returns an empty buffer (with or
without a prefix); when relativization consumes the entire input *and*
the unmatched prefix contributes no `"../"` components the result is
exactly `"./"`; and in general the result is either `"./"` or the
`"../"` run followed by the remaining path with every LF / CR byte
replaced by the two-character escapes `"\\n"` / `"\\r"`
(`escapeSpec`). -/
theorem quote_path_nonempty_spec (inp : List Nat) (len : Int) (p : List Nat) :
    quote_path inp len none ≠ [] ∧
    quote_path inp len (some p) ≠ [] ∧
    ((quote_path_rel p inp (if len < 0 then inp.length else len.toNat) 0).2.2 = 0 ∧
      quote_dots (quote_path_rel p inp (if len < 0 then inp.length else len.toNat) 0).1 = [] →
      quote_path inp len (some p) = [46, 47]) ∧
    (quote_path inp len (some p) = [46, 47] ∨
      quote_path inp len (some p) =
        quote_dots (quote_path_rel p inp (if len < 0 then inp.length else len.toNat) 0).1 ++
          escapeSpec ((quote_path_rel p inp (if len < 0 then inp.length else len.toNat) 0).2.1.take
            (quote_path_rel p inp (if len < 0 then inp.length else len.toNat) 0).2.2)) := by
  refine ⟨?_, ?_, ?_, ?_⟩
  · rw [quote_path_none_eq]
    split <;> split <;> simp_all
  · rw [quote_path_some_eq]
    split <;> split <;> simp_all
  · intro h
    obtain ⟨h0, hd⟩ := h
    rw [quote_path_some_eq, h0, hd]
    simp [quote_escape]
  · rw [quote_path_some_eq]
    split <;> split
    · left; rfl
    · right; rw [quote_escape_eq_escapeSpec]
    · left; rfl
    · right; rw [quote_escape_eq_escapeSpec]

/-! ### Comparator and binary-search lemmas (for C6 / C10) -/

theorem cmpBytes_eq_iff : ∀ a b : List Nat, cmpBytes a b = .eq ↔ a = b := by
  intro a
  induction a with
  | nil => intro b; cases b <;> simp [cmpBytes]
  | cons x xs ih =>
    intro b
    cases b with
    | nil => simp [cmpBytes]
    | cons y ys =>
      simp only [cmpBytes]
      by_cases h1 : x < y
      · simp only [if_pos h1, List.cons.injEq]
        constructor
        · intro h; simp at h
        · intro ⟨hxy, _⟩; omega
      · by_cases h2 : y < x
        · simp only [if_neg h1, if_pos h2, List.cons.injEq]
          constructor
          · intro h; simp at h
          · intro ⟨hxy, _⟩; omega
        · have hxy : x = y := by omega
          subst hxy
          simp [ih]

theorem cmpBytes_swap : ∀ a b : List Nat, cmpBytes b a = (cmpBytes a b).swap := by
  intro a
  induction a with
  | nil => intro b; cases b <;> simp [cmpBytes, Ordering.swap]
  | cons x xs ih =>
    intro b
    cases b with
    | nil => simp [cmpBytes, Ordering.swap]
    | cons y ys =>
      simp only [cmpBytes]
      by_cases h1 : x < y
      · have h2 : ¬y < x := by omega
        simp [h1, h2, Ordering.swap]
      · by_cases h2 : y < x
        · simp [h1, h2, Ordering.swap]
        · have hxy : x = y := by omega
          subst hxy
          simp [ih]

theorem cmpBytes_lt_trans :
    ∀ a b c : List Nat, cmpBytes a b = .lt → cmpBytes b c = .lt → cmpBytes a c = .lt := by
  intro a
  induction a with
  | nil =>
    intro b c hab hbc
    cases c with
    | nil =>
      cases b with
      | nil => simp [cmpBytes] at hab
      | cons y ys => simp [cmpBytes] at hbc
    | cons z zs => simp [cmpBytes]
  | cons x xs ih =>
    intro b c hab hbc
    cases b with
    | nil => simp [cmpBytes] at hab
    | cons y ys =>
      cases c with
      | nil => simp [cmpBytes] at hbc
      | cons z zs =>
        simp only [cmpBytes] at hab hbc ⊢
        have hx : x < y ∨ (x = y ∧ cmpBytes xs ys = .lt) := by
          by_cases h1 : x < y
          · exact Or.inl h1
          · by_cases h2 : y < x
            · simp [h1, h2] at hab
            · exact Or.inr ⟨by omega, by simpa [h1, h2] using hab⟩
        have hy : y < z ∨ (y = z ∧ cmpBytes ys zs = .lt) := by
          by_cases h1 : y < z
          · exact Or.inl h1
          · by_cases h2 : z < y
            · simp [h1, h2] at hbc
            · exact Or.inr ⟨by omega, by simpa [h1, h2] using hbc⟩
        rcases hx with h1 | ⟨h1, hr1⟩ <;> rcases hy with h2 | ⟨h2, hr2⟩
        · simp [show x < z by omega]
        · simp [show x < z by omega]
        · simp [show x < z by omega]
        · subst h1; subst h2
          simp [ih ys zs hr1 hr2]

theorem ordering_swap_lt (o : Ordering) : o.swap = .lt ↔ o = .gt := by
  cases o <;> simp [Ordering.swap]

theorem ordering_swap_eq (o : Ordering) : o.swap = .eq ↔ o = .eq := by
  cases o <;> simp [Ordering.swap]

theorem cmpKeys_eq_iff (a b : List Nat × Nat) : cmpKeys a b = .eq ↔ a = b := by
  unfold cmpKeys
  by_cases h : cmpBytes a.1 b.1 = .eq
  · rw [if_pos h, Nat.compare_eq_eq]
    have h1 : a.1 = b.1 := (cmpBytes_eq_iff _ _).mp h
    constructor
    · intro h2
      exact Prod.ext h1 h2
    · intro h2
      rw [h2]
  · rw [if_neg h]
    constructor
    · intro h2; exact absurd h2 h
    · intro h2
      exact absurd ((cmpBytes_eq_iff a.1 b.1).mpr (by rw [h2])) h

theorem cmpKeys_swap (a b : List Nat × Nat) : cmpKeys b a = (cmpKeys a b).swap := by
  unfold cmpKeys
  rw [cmpBytes_swap a.1 b.1]
  by_cases h : cmpBytes a.1 b.1 = .eq
  · rw [h]
    exact (Nat.compare_swap a.2 b.2).symm
  · rw [if_neg (fun hc => h ((ordering_swap_eq _).mp hc)), if_neg h]

theorem cmpKeys_gt_iff_lt (x y : List Nat × Nat) : cmpKeys x y = .gt ↔ cmpKeys y x = .lt := by
  rw [cmpKeys_swap x y, ordering_swap_lt]

theorem cmpKeys_lt_trans (x y z : List Nat × Nat)
    (hab : cmpKeys x y = .lt) (hbc : cmpKeys y z = .lt) : cmpKeys x z = .lt := by
  unfold cmpKeys at hab hbc ⊢
  by_cases h1 : cmpBytes x.1 y.1 = .eq <;> by_cases h2 : cmpBytes y.1 z.1 = .eq
  · rw [if_pos h1] at hab
    rw [if_pos h2] at hbc
    have e1 : x.1 = y.1 := (cmpBytes_eq_iff _ _).mp h1
    have e2 : y.1 = z.1 := (cmpBytes_eq_iff _ _).mp h2
    have e3 : cmpBytes x.1 z.1 = .eq := (cmpBytes_eq_iff _ _).mpr (e1.trans e2)
    rw [if_pos e3]
    rw [Nat.compare_eq_lt] at hab hbc ⊢
    omega
  · rw [if_neg h2] at hbc
    have e1 : x.1 = y.1 := (cmpBytes_eq_iff _ _).mp h1
    have e3 : cmpBytes x.1 z.1 = .lt := by rw [e1]; exact hbc
    rw [if_neg (by simp [e3]), e3]
  · rw [if_neg h1] at hab
    have e2 : y.1 = z.1 := (cmpBytes_eq_iff _ _).mp h2
    have e3 : cmpBytes x.1 z.1 = .lt := by rw [← e2]; exact hab
    rw [if_neg (by simp [e3]), e3]
  · rw [if_neg h1] at hab
    rw [if_neg h2] at hbc
    have e3 : cmpBytes x.1 z.1 = .lt := cmpBytes_lt_trans _ _ _ hab hbc
    rw [if_neg (by simp [e3]), e3]

theorem entryAt_eq (cache : List CEntry) (i : Nat) (h : i < cache.length) :
    entryAt cache i = cache[i] := by
  unfold entryAt
  rw [List.headD_eq_head?_getD, List.head?_drop, List.getElem?_eq_getElem h]
  rfl

theorem sorted_rel {cache : List CEntry} (hs : IndexSorted cache) {i j : Nat}
    (hij : i < j) (hj : j < cache.length) :
    cmpKeys (keyOf (entryAt cache i)) (keyOf (entryAt cache j)) = .lt := by
  have hi : i < cache.length := lt_trans hij hj
  rw [entryAt_eq _ _ hi, entryAt_eq _ _ hj]
  exact List.pairwise_iff_getElem.mp hs i j hi hj hij

theorem countP_boundary {α : Type} (l : List α) (p : α → Bool) (k : Nat) (hk : k ≤ l.length)
    (h1 : ∀ i, i < k → (hi : i < l.length) → p (l[i]) = true)
    (h2 : ∀ i, k ≤ i → (hi : i < l.length) → p (l[i]) = false) :
    l.countP p = k := by
  conv_lhs => rw [← List.take_append_drop k l]
  rw [List.countP_append]
  have hlen : (l.take k).length = k := by
    simp [List.length_take]
    omega
  have ht : (l.take k).countP p = k := by
    conv_rhs => rw [← hlen]
    rw [List.countP_eq_length]
    intro a ha
    obtain ⟨i, hi, hEq⟩ := List.mem_iff_getElem.mp ha
    have hik : i < k := by rw [hlen] at hi; exact hi
    have hil : i < l.length := by omega
    have hg : (l.take k)[i] = l[i] := by simp
    rw [hg] at hEq
    rw [← hEq]
    exact h1 i hik hil
  have hd : (l.drop k).countP p = 0 := by
    rw [List.countP_eq_zero]
    intro a ha
    obtain ⟨i, hi, hEq⟩ := List.mem_iff_getElem.mp ha
    have hil : k + i < l.length := by
      simp [List.length_drop] at hi
      omega
    have hg : (l.drop k)[i] = l[k + i] := by simp
    rw [hg] at hEq
    rw [← hEq]
    simp [h2 (k + i) (by omega) hil]
  rw [ht, hd]
  omega

theorem inp_loop_correct (cache : List CEntry) (key : List Nat × Nat)
    (hs : IndexSorted cache) (first last : Nat) (hfl : first ≤ last)
    (hln : last ≤ cache.length)
    (hlo : ∀ i, i < first → cmpKeys key (keyOf (entryAt cache i)) = .gt)
    (hhi : ∀ i, last ≤ i → i < cache.length → cmpKeys key (keyOf (entryAt cache i)) = .lt) :
    (∃ j, j < cache.length ∧
        index_name_pos_loop cache key first last = Int.ofNat j ∧
        cmpKeys key (keyOf (entryAt cache j)) = .eq) ∨
      (index_name_pos_loop cache key first last = -(insPoint cache key : Int) - 1 ∧
        (∀ j, j < cache.length → cmpKeys key (keyOf (entryAt cache j)) ≠ .eq) ∧
        (∀ i, i < insPoint cache key → cmpKeys key (keyOf (entryAt cache i)) = .gt) ∧
        (∀ i, insPoint cache key ≤ i → i < cache.length →
          cmpKeys key (keyOf (entryAt cache i)) = .lt)) := by
  by_cases h : first < last
  · have hnl : (first + last) / 2 < last := by omega
    have hfn : first ≤ (first + last) / 2 := by omega
    have hnc : (first + last) / 2 < cache.length := by omega
    cases hc : cmpKeys key (keyOf (entryAt cache ((first + last) / 2))) with
    | eq =>
      left
      refine ⟨(first + last) / 2, hnc, ?_, hc⟩
      rw [index_name_pos_loop, dif_pos h, hc]
    | lt =>
      have hhi2 : ∀ i, (first + last) / 2 ≤ i → i < cache.length →
          cmpKeys key (keyOf (entryAt cache i)) = .lt := by
        intro i hni hin
        rcases Nat.eq_or_lt_of_le hni with heq | hlt
        · rw [← heq]; exact hc
        · exact cmpKeys_lt_trans _ _ _ hc (sorted_rel hs hlt hin)
      have hred : index_name_pos_loop cache key first last =
          index_name_pos_loop cache key first ((first + last) / 2) := by
        rw [index_name_pos_loop, dif_pos h, hc]
      rw [hred]
      exact inp_loop_correct cache key hs first ((first + last) / 2) hfn (by omega) hlo hhi2
    | gt =>
      have hlo2 : ∀ i, i < (first + last) / 2 + 1 →
          cmpKeys key (keyOf (entryAt cache i)) = .gt := by
        intro i hi
        rcases Nat.lt_or_ge i ((first + last) / 2) with hlt | hge
        · have h1 : cmpKeys (keyOf (entryAt cache i))
              (keyOf (entryAt cache ((first + last) / 2))) = .lt := sorted_rel hs hlt hnc
          have h2 : cmpKeys (keyOf (entryAt cache ((first + last) / 2))) key = .lt :=
            (cmpKeys_gt_iff_lt _ _).mp hc
          exact (cmpKeys_gt_iff_lt _ _).mpr (cmpKeys_lt_trans _ _ _ h1 h2)
        · have hieq : i = (first + last) / 2 := by omega
          rw [hieq]; exact hc
      have hred : index_name_pos_loop cache key first last =
          index_name_pos_loop cache key ((first + last) / 2 + 1) last := by
        rw [index_name_pos_loop, dif_pos h, hc]
      rw [hred]
      exact inp_loop_correct cache key hs ((first + last) / 2 + 1) last (by omega) hln hlo2 hhi
  · have hfl2 : first = last := by omega
    have hred : index_name_pos_loop cache key first last = -(first : Int) - 1 := by
      rw [index_name_pos_loop, dif_neg h]
    have hins : insPoint cache key = first := by
      unfold insPoint
      apply countP_boundary _ _ _ (by omega)
      · intro i hik hil
        rw [← entryAt_eq cache i hil]
        simp [hlo i hik]
      · intro i hik hil
        rw [← entryAt_eq cache i hil]
        simp [hhi i (by omega) hil]
    right
    refine ⟨by rw [hred, hins], ?_, ?_, ?_⟩
    · intro j hj
      by_cases hjf : j < first
      · simp [hlo j hjf]
      · simp [hhi j (by omega) hj]
    · intro i hi
      rw [hins] at hi
      exact hlo i hi
    · intro i hi hin
      rw [hins] at hi
      exact hhi i (by omega) hin
termination_by last - first
decreasing_by
  · omega
  · omega

theorem mem_entryAt {cache : List CEntry} {e : CEntry} (he : e ∈ cache) :
    ∃ j, j < cache.length ∧ entryAt cache j = e := by
  obtain ⟨j, hj, hEq⟩ := List.mem_iff_getElem.mp he
  exact ⟨j, hj, by rw [entryAt_eq _ _ hj, hEq]⟩

theorem entryAt_mem (cache : List CEntry) (j : Nat) (hj : j < cache.length) :
    entryAt cache j ∈ cache := by
  rw [entryAt_eq _ _ hj]
  exact List.getElem_mem hj

theorem key_eq_components {name : List Nat} {e : CEntry}
    (h : cmpKeys (name, 0) (keyOf e) = .eq) : e.name = name ∧ e.stage = 0 := by
  have h2 := (cmpKeys_eq_iff _ _).mp h
  unfold keyOf at h2
  have hn : name = e.name := congrArg Prod.fst h2
  have hst : (0 : Nat) = e.stage := congrArg Prod.snd h2
  exact ⟨hn.symm, hst.symm⟩

theorem key_eq_of_components {name : List Nat} {e : CEntry}
    (hn : e.name = name) (hst : e.stage = 0) :
    cmpKeys (name, 0) (keyOf e) = .eq := by
  apply (cmpKeys_eq_iff _ _).mpr
  unfold keyOf
  rw [hn, hst]

theorem inp_main (cache : List CEntry) (name : List Nat) (hs : IndexSorted cache) :
    (∃ j, j < cache.length ∧
        index_name_pos cache name = Int.ofNat j ∧
        cmpKeys (name, 0) (keyOf (entryAt cache j)) = .eq) ∨
      (index_name_pos cache name = -(insPoint cache (name, 0) : Int) - 1 ∧
        (∀ j, j < cache.length → cmpKeys (name, 0) (keyOf (entryAt cache j)) ≠ .eq) ∧
        (∀ i, i < insPoint cache (name, 0) →
          cmpKeys (name, 0) (keyOf (entryAt cache i)) = .gt) ∧
        (∀ i, insPoint cache (name, 0) ≤ i → i < cache.length →
          cmpKeys (name, 0) (keyOf (entryAt cache i)) = .lt)) :=
  inp_loop_correct cache (name, 0) hs 0 cache.length (Nat.zero_le _) (le_refl _)
    (fun i hi => absurd hi (Nat.not_lt_zero i))
    (fun i h1 h2 => absurd h2 (by omega))

/-- C6: for every sorted index state and queried name — if an entry with
that name exists at stage 0, `index_name_pos` returns a non-negative
position holding an entry with that name (at stage 0); if absent, it
returns `-(insertion point) - 1` (the bitwise complement of the
insertion point), where the insertion point is the sorted position at
which an add of that name at stage 0 would place the entry: every entry
before it compares strictly below the key and every entry at or after it
compares strictly above. -/
theorem index_name_pos_correct (cache : List CEntry) (name : List Nat)
    (hs : IndexSorted cache) :
    ((∃ e ∈ cache, e.name = name ∧ e.stage = 0) →
      ∃ j, j < cache.length ∧ index_name_pos cache name = Int.ofNat j ∧
        (entryAt cache j).name = name ∧ (entryAt cache j).stage = 0) ∧
    ((¬∃ e ∈ cache, e.name = name ∧ e.stage = 0) →
      index_name_pos cache name = -(insPoint cache (name, 0) : Int) - 1 ∧
      (∀ i, i < insPoint cache (name, 0) →
        cmpKeys (keyOf (entryAt cache i)) (name, 0) = .lt) ∧
      (∀ i, insPoint cache (name, 0) ≤ i → i < cache.length →
        cmpKeys (name, 0) (keyOf (entryAt cache i)) = .lt)) := by
  have H := inp_main cache name hs
  constructor
  · intro ⟨e, he, hn, hst⟩
    rcases H with ⟨j, hj, hpos, heq⟩ | ⟨hpos, hnone, hgt, hlt⟩
    · obtain ⟨h1, h2⟩ := key_eq_components heq
      exact ⟨j, hj, hpos, h1, h2⟩
    · obtain ⟨j, hj, hEq⟩ := mem_entryAt he
      exact absurd (by rw [hEq]; exact key_eq_of_components hn hst) (hnone j hj)
  · intro habs
    rcases H with ⟨j, hj, hpos, heq⟩ | ⟨hpos, hnone, hgt, hlt⟩
    · obtain ⟨h1, h2⟩ := key_eq_components heq
      exact absurd ⟨entryAt cache j, entryAt_mem cache j hj, h1, h2⟩ habs
    · refine ⟨hpos, ?_, hlt⟩
      intro i hi
      exact (cmpKeys_gt_iff_lt _ _).mp (hgt i hi)

theorem untracked_decision_of_nonneg {cache : List CEntry} {entName : List Nat} {j : Nat}
    (hpos : index_name_pos cache entName = Int.ofNat j) :
    untracked_decision cache entName = .bugAssert := by
  unfold untracked_decision
  rw [hpos]
  dsimp only
  have h0 : (0 : Int) ≤ Int.ofNat j := Int.ofNat_nonneg j
  rw [if_pos h0]

theorem untracked_decision_of_neg {cache : List CEntry} {entName : List Nat} {p : Nat}
    (hpos : index_name_pos cache entName = -(p : Int) - 1) :
    untracked_decision cache entName =
      (if p < cache.length ∧ (entryAt cache p).name.length = entName.length ∧
          (entryAt cache p).name.take entName.length = entName
        then .skipUnmerged else .listUntracked) := by
  unfold untracked_decision
  rw [hpos]
  rw [if_neg (by omega)]
  have ht : (-(-(p : Int) - 1) - 1).toNat = p := by omega
  rw [ht]

theorem take_length_eq {l1 l2 : List Nat} (h1 : l1.length = l2.length)
    (h2 : l1.take l2.length = l2) : l1 = l2 := by
  rw [← h1, List.take_length] at h2
  exact h2

/-- C10: for every sorted index state, a scanned path is listed as
untracked exactly when no index entry with that name exists at any
stage; a path present at stage 0 triggers the internal bug assertion
(`die`), and a path present only at conflict stages (> 0) is silently
skipped. -/
theorem untracked_decision_correct (cache : List CEntry) (entName : List Nat)
    (hs : IndexSorted cache) :
    (untracked_decision cache entName = .listUntracked ↔ ∀ e ∈ cache, e.name ≠ entName) ∧
    ((∃ e ∈ cache, e.name = entName ∧ e.stage = 0) →
      untracked_decision cache entName = .bugAssert) ∧
    ((∃ e ∈ cache, e.name = entName) ∧ (∀ e ∈ cache, e.name = entName → e.stage ≠ 0) →
      untracked_decision cache entName = .skipUnmerged) := by
  have H := inp_main cache entName hs
  -- the bug-assert case
  have hbug : (∃ e ∈ cache, e.name = entName ∧ e.stage = 0) →
      untracked_decision cache entName = .bugAssert := by
    intro ⟨e, he, hn, hst⟩
    rcases H with ⟨j, hj, hpos, heq⟩ | ⟨hpos, hnone, hgt, hlt⟩
    · exact untracked_decision_of_nonneg hpos
    · obtain ⟨j, hj, hEq⟩ := mem_entryAt he
      exact absurd (by rw [hEq]; exact key_eq_of_components hn hst) (hnone j hj)
  -- the skip case
  have hskip : (∃ e ∈ cache, e.name = entName) ∧
      (∀ e ∈ cache, e.name = entName → e.stage ≠ 0) →
      untracked_decision cache entName = .skipUnmerged := by
    intro ⟨⟨e, he, hn⟩, hnostage⟩
    rcases H with ⟨j, hj, hpos, heq⟩ | ⟨hpos, hnone, hgt, hlt⟩
    · obtain ⟨h1, h2⟩ := key_eq_components heq
      exact absurd h2 (hnostage _ (entryAt_mem cache j hj) h1)
    · obtain ⟨j, hj, hEq⟩ := mem_entryAt he
      -- p ≤ j : otherwise entry j would compare gt, impossible for equal names
      have hpj : insPoint cache (entName, 0) ≤ j := by
        by_contra hcon
        have hg := hgt j (by omega)
        rw [hEq] at hg
        unfold cmpKeys keyOf at hg
        rw [hn] at hg
        rw [if_pos ((cmpBytes_eq_iff _ _).mpr rfl)] at hg
        rcases Nat.eq_zero_or_pos e.stage with h0 | h0
        · exact hnostage e he hn h0
        · rw [(Nat.compare_eq_lt).mpr h0] at hg
          simp at hg
      have hpn : insPoint cache (entName, 0) < cache.length := by omega
      -- the entry at the insertion point carries the same name
      have hname : (entryAt cache (insPoint cache (entName, 0))).name = entName := by
        by_contra hcon
        have hple : insPoint cache (entName, 0) < j := by
          rcases Nat.eq_or_lt_of_le hpj with heqj | hlt2
          · exact absurd (by rw [heqj, hEq]; exact hn) hcon
          · exact hlt2
        have hl1 := hlt (insPoint cache (entName, 0)) (le_refl _) hpn
        -- from hl1 : key < entry_p and names differ, the byte comparison is lt
        have hb1 : cmpBytes entName (entryAt cache (insPoint cache (entName, 0))).name = .lt := by
          unfold cmpKeys keyOf at hl1
          by_cases hbe : cmpBytes entName (entryAt cache (insPoint cache (entName, 0))).name = .eq
          · exact absurd ((cmpBytes_eq_iff _ _).mp hbe).symm hcon
          · rw [if_neg hbe] at hl1
            exact hl1
        have hl2 := sorted_rel hs hple hj
        -- entry_p < entry_j, and entry_j has name entName
        have hb2 : cmpBytes (entryAt cache (insPoint cache (entName, 0))).name entName = .lt ∨
            (entryAt cache (insPoint cache (entName, 0))).name = entName := by
          unfold cmpKeys keyOf at hl2
          rw [hEq, hn] at hl2
          by_cases hbe : cmpBytes (entryAt cache (insPoint cache (entName, 0))).name entName = .eq
          · exact Or.inr ((cmpBytes_eq_iff _ _).mp hbe)
          · rw [if_neg hbe] at hl2
            exact Or.inl hl2
        rcases hb2 with hb2 | hb2
        · have := cmpBytes_lt_trans _ _ _ hb1 hb2
          rw [(cmpBytes_eq_iff entName entName).mpr rfl] at this
          simp at this
        · exact hcon hb2
      rw [untracked_decision_of_neg hpos]
      rw [if_pos ⟨hpn, by rw [hname], by rw [hname, List.take_length]⟩]
  refine ⟨?_, hbug, hskip⟩
  constructor
  · intro hdec e he hn
    by_cases hst : ∃ e2 ∈ cache, e2.name = entName ∧ e2.stage = 0
    · rw [hbug hst] at hdec
      simp at hdec
    · have : (∃ e2 ∈ cache, e2.name = entName) ∧
          (∀ e2 ∈ cache, e2.name = entName → e2.stage ≠ 0) := by
        refine ⟨⟨e, he, hn⟩, ?_⟩
        intro e2 he2 hn2 h0
        exact hst ⟨e2, he2, hn2, h0⟩
      rw [hskip this] at hdec
      simp at hdec
  · intro habs
    have hnoeq : ¬∃ e ∈ cache, e.name = entName ∧ e.stage = 0 := by
      intro ⟨e, he, hn, _⟩
      exact habs e he hn
    rcases H with ⟨j, hj, hpos, heq⟩ | ⟨hpos, hnone, hgt, hlt⟩
    · obtain ⟨h1, h2⟩ := key_eq_components heq
      exact absurd ⟨entryAt cache j, entryAt_mem cache j hj, h1, h2⟩ hnoeq
    · rw [untracked_decision_of_neg hpos]
      rw [if_neg ?_]
      intro ⟨hpn, hlen, htake⟩
      exact habs _ (entryAt_mem cache _ hpn) (take_length_eq hlen htake)

/-- C6, witness: a two-entry sorted index with `"a"` at stage 0 and
`"b"` at stage 2, queried for `"a"`. -/
theorem index_name_pos_correct_witness :
    ((∃ e ∈ [CEntry.mk [97] 0, CEntry.mk [98] 2], e.name = [97] ∧ e.stage = 0) →
      ∃ j, j < [CEntry.mk [97] 0, CEntry.mk [98] 2].length ∧
        index_name_pos [CEntry.mk [97] 0, CEntry.mk [98] 2] [97] = Int.ofNat j ∧
        (entryAt [CEntry.mk [97] 0, CEntry.mk [98] 2] j).name = [97] ∧
        (entryAt [CEntry.mk [97] 0, CEntry.mk [98] 2] j).stage = 0) ∧
    ((¬∃ e ∈ [CEntry.mk [97] 0, CEntry.mk [98] 2], e.name = [97] ∧ e.stage = 0) →
      index_name_pos [CEntry.mk [97] 0, CEntry.mk [98] 2] [97] =
        -(insPoint [CEntry.mk [97] 0, CEntry.mk [98] 2] ([97], 0) : Int) - 1 ∧
      (∀ i, i < insPoint [CEntry.mk [97] 0, CEntry.mk [98] 2] ([97], 0) →
        cmpKeys (keyOf (entryAt [CEntry.mk [97] 0, CEntry.mk [98] 2] i)) ([97], 0) = .lt) ∧
      (∀ i, insPoint [CEntry.mk [97] 0, CEntry.mk [98] 2] ([97], 0) ≤ i →
        i < [CEntry.mk [97] 0, CEntry.mk [98] 2].length →
        cmpKeys ([97], 0) (keyOf (entryAt [CEntry.mk [97] 0, CEntry.mk [98] 2] i)) = .lt)) :=
  index_name_pos_correct [CEntry.mk [97] 0, CEntry.mk [98] 2] [97] (by decide)

/-- C10, witness: the same two-entry index, scanned path `"b"`, which is
present only at stage 2. -/
theorem untracked_decision_correct_witness :
    (untracked_decision [CEntry.mk [97] 0, CEntry.mk [98] 2] [98] = .listUntracked ↔
      ∀ e ∈ [CEntry.mk [97] 0, CEntry.mk [98] 2], e.name ≠ [98]) ∧
    ((∃ e ∈ [CEntry.mk [97] 0, CEntry.mk [98] 2], e.name = [98] ∧ e.stage = 0) →
      untracked_decision [CEntry.mk [97] 0, CEntry.mk [98] 2] [98] = .bugAssert) ∧
    ((∃ e ∈ [CEntry.mk [97] 0, CEntry.mk [98] 2], e.name = [98]) ∧
      (∀ e ∈ [CEntry.mk [97] 0, CEntry.mk [98] 2], e.name = [98] → e.stage ≠ 0) →
      untracked_decision [CEntry.mk [97] 0, CEntry.mk [98] 2] [98] = .skipUnmerged) :=
  untracked_decision_correct [CEntry.mk [97] 0, CEntry.mk [98] 2] [98] (by decide)
